import Mathlib

set_option maxHeartbeats 1000000

namespace OxcExport

/-- Source location of an export declaration, mirroring `oxc_span::Span`
(start and end byte offsets). -/
structure Span where
  start : Nat
  stop : Nat
deriving DecidableEq, Repr

/-- The per-module semantic summary consumed by the `export` lint rule,
mirroring the fields of `oxc_semantic::ModuleRecord` that the rule reads:
`exported_bindings : FxHashMap<Atom, Span>` (local export name to the span of
its declaration), `star_export_entries : Vec<ExportEntry>` (of which only the
optional `module_request` specifier name is read), and
`loaded_modules : DashMap<CompactString, ModuleRecord>` (specifier to resolved
module).  To allow cyclic module graphs, `loaded_modules` maps a specifier to
an index into an ambient list `g : List ModuleRecord` of all loaded modules;
an index out of range behaves like an unresolved specifier. -/
structure ModuleRecord where
  exported_bindings : List (String × Span)
  star_export_entries : List (Option String)
  loaded_modules : List (String × Nat)
deriving DecidableEq, Repr

/-- First-match association-list lookup, modelling `HashMap::get` and
`DashMap::get` (whose keys are unique by construction in the real maps). -/
def lookupA {α β : Type} [DecidableEq α] : List (α × β) → α → Option β
  | [], _ => none
  | (k, v) :: rest, a => if k = a then some v else lookupA rest a

/-- The set of a module's own local export names
(`module_record.exported_bindings.keys()`). -/
def localNames (m : ModuleRecord) : Finset String :=
  (m.exported_bindings.map Prod.fst).toFinset

/-- `module_record.loaded_modules.get(module_request.name())`: resolve a
specifier string to the target module through the ambient module list `g`. -/
def loadedLookup (g : List ModuleRecord) (m : ModuleRecord) (spec : String) :
    Option ModuleRecord :=
  match lookupA m.loaded_modules spec with
  | none => none
  | some i => g[i]?

/-- The `for export_entry in &module_record.star_export_entries` loop inside
`collect_exported_recursive`: entries with no `module_request`, or whose
specifier does not resolve, are skipped; resolved targets are recursed into
via `recur`, the recursive call of `collectFuel` at one less fuel. -/
def collectEntries (g : List ModuleRecord) (m : ModuleRecord)
    (recur : Finset String → ModuleRecord → Option (Finset String)) :
    Finset String → List (Option String) → Option (Finset String)
  | acc, [] => some acc
  | acc, none :: rest => collectEntries g m recur acc rest
  | acc, some spec :: rest =>
      match loadedLookup g m spec with
      | none => collectEntries g m recur acc rest
      | some t =>
          match recur acc t with
          | none => none
          | some acc2 => collectEntries g m recur acc2 rest

/-- `collect_exported_recursive` from
`crates/oxc_linter/src/rules/import/export.rs`, with an explicit fuel
parameter bounding the recursion depth (the Rust function has no cycle guard:
`// TODO: support detect cycle`).  `acc` is the `&mut FxHashSet<Atom>`
accumulator; a `none` result means the depth bound was exhausted, so
`collectFuel g fuel acc m = none` for every `fuel` exactly when the Rust
recursion never terminates on `m`. -/
def collectFuel (g : List ModuleRecord) : Nat → Finset String → ModuleRecord →
    Option (Finset String)
  | 0, _, _ => none
  | fuel + 1, acc, m =>
      collectEntries g m (collectFuel g fuel) (acc ∪ localNames m)
        m.star_export_entries

/-- `duplicated_named_export.entry(*span).or_insert_with(|| name.clone())`:
insert the pair only when the span key is not yet present (first insertion
wins).  The map is modelled as an insertion-ordered association list. -/
def insertNamed (dup : List (Span × String)) (s : Span) (n : String) :
    List (Span × String) :=
  match lookupA dup s with
  | none => dup ++ [(s, n)]
  | some _ => dup

/-- The `for name in &all_export_names` loop of `Export::run_once`: for each
collected name that is also a local export, record a candidate diagnostic
keyed by the local declaration's span.  `L` is the iteration order of the
`FxHashSet` of collected names. -/
def processNames (bs : List (String × Span)) (dup : List (Span × String)) :
    List String → List (Span × String)
  | [] => dup
  | n :: rest =>
      match lookupA bs n with
      | none => processNames bs dup rest
      | some s => processNames bs (insertNamed dup s n) rest

/-- The `for export_entry in &module_record.star_export_entries` loop of
`Export::run_once`: skip entries with no specifier or an unresolved
specifier; for each resolved target, collect its transitive export names
(into a fresh empty set) and fold them into the candidate map.  `ord` gives
the iteration order used for each collected `FxHashSet`. -/
def processEntries (g : List ModuleRecord) (fuel : Nat)
    (ord : Finset String → List String) (m : ModuleRecord) :
    List (Span × String) → List (Option String) → Option (List (Span × String))
  | dup, [] => some dup
  | dup, none :: rest => processEntries g fuel ord m dup rest
  | dup, some spec :: rest =>
      match loadedLookup g m spec with
      | none => processEntries g fuel ord m dup rest
      | some remote =>
          match collectFuel g fuel ∅ remote with
          | none => none
          | some names => processEntries g fuel ord m
              (processNames m.exported_bindings dup (ord names)) rest

/-- `Export::run_once`, parameterized by the hash-set iteration order `ord`
and the recursion-depth bound `fuel`.  Returns the final
`duplicated_named_export` map as an insertion-ordered list of
(span, name) pairs; `none` means the collector's recursion never reached its
base case within `fuel` (divergence of the unguarded Rust recursion). -/
def runOnceWith (g : List ModuleRecord) (fuel : Nat)
    (ord : Finset String → List String) (m : ModuleRecord) :
    Option (List (Span × String)) :=
  if m.star_export_entries.isEmpty then some []
  else processEntries g fuel ord m [] m.star_export_entries

/-- Numeric key of a character: its Unicode code point. -/
def charKey (c : Char) : Nat := c.val.toNat

/-- Lexicographic comparison of character lists by code point.  (The
library's `String` order goes through the iterator-based `String.ltb`, which
the kernel cannot evaluate, so the canonical enumeration below carries its
own order.) -/
def lexLe : List Char → List Char → Bool
  | [], _ => true
  | _ :: _, [] => false
  | a :: as, b :: bs =>
      if charKey a < charKey b then true
      else if charKey b < charKey a then false
      else lexLe as bs

/-- Total order on strings induced by `lexLe`, fixing the canonical hash-set
iteration order. -/
def strLe (a b : String) : Prop := lexLe a.data b.data = true

instance : DecidableRel strLe := fun a b =>
  inferInstanceAs (Decidable (lexLe a.data b.data = true))

instance : IsTotal String strLe := by
  constructor
  suffices h : ∀ as bs, lexLe as bs = true ∨ lexLe bs as = true by
    intro a b
    exact h a.data b.data
  intro as
  induction as with
  | nil => intro bs; exact Or.inl rfl
  | cons a as ih =>
      intro bs
      cases bs with
      | nil => exact Or.inr rfl
      | cons b bs =>
          by_cases h1 : charKey a < charKey b
          · exact Or.inl (by simp [lexLe, h1])
          · by_cases h2 : charKey b < charKey a
            · exact Or.inr (by simp [lexLe, h2])
            · rcases ih bs with h3 | h3
              · exact Or.inl (by simp [lexLe, h1, h2, h3])
              · exact Or.inr (by simp [lexLe, h1, h2, h3])

instance : IsTrans String strLe := by
  constructor
  suffices h : ∀ as bs cs, lexLe as bs = true → lexLe bs cs = true →
      lexLe as cs = true by
    intro a b c
    exact h a.data b.data c.data
  intro as
  induction as with
  | nil => intro bs cs h1 h2; rfl
  | cons a as ih =>
      intro bs cs hab hbc
      cases bs with
      | nil => exact absurd hab (by simp [lexLe])
      | cons b bs =>
          cases cs with
          | nil => exact absurd hbc (by simp [lexLe])
          | cons c cs =>
              by_cases h1 : charKey a < charKey b
              · by_cases h2 : charKey b < charKey c
                · have h3 : charKey a < charKey c := Nat.lt_trans h1 h2
                  simp [lexLe, h3]
                · by_cases h4 : charKey c < charKey b
                  · exact absurd hbc (by simp [lexLe, h2, h4])
                  · have h3 : charKey a < charKey c := by omega
                    simp [lexLe, h3]
              · by_cases h2 : charKey b < charKey a
                · exact absurd hab (by simp [lexLe, h1, h2])
                · have hab2 : lexLe as bs = true := by
                    simpa [lexLe, h1, h2] using hab
                  by_cases h3 : charKey b < charKey c
                  · have h4 : charKey a < charKey c := by omega
                    simp [lexLe, h4]
                  · by_cases h4 : charKey c < charKey b
                    · exact absurd hbc (by simp [lexLe, h3, h4])
                    · have hbc2 : lexLe bs cs = true := by
                        simpa [lexLe, h3, h4] using hbc
                      have h5 : ¬ charKey a < charKey c := by omega
                      have h6 : ¬ charKey c < charKey a := by omega
                      simp [lexLe, h5, h6, ih bs cs hab2 hbc2]

instance : IsAntisymm String strLe := by
  constructor
  suffices h : ∀ as bs, lexLe as bs = true → lexLe bs as = true → as = bs by
    intro a b hab hba
    cases a with
    | mk da =>
        cases b with
        | mk db =>
            have hd := h da db hab hba
            cases hd
            rfl
  intro as
  induction as with
  | nil =>
      intro bs h1 h2
      cases bs with
      | nil => rfl
      | cons b bs => exact absurd h2 (by simp [lexLe])
  | cons a as ih =>
      intro bs h1 h2
      cases bs with
      | nil => exact absurd h1 (by simp [lexLe])
      | cons b bs =>
          by_cases hk1 : charKey a < charKey b
          · exact absurd h2
              (by simp [lexLe, hk1, show ¬ charKey b < charKey a by omega])
          · by_cases hk2 : charKey b < charKey a
            · exact absurd h1
                (by simp [lexLe, hk2, show ¬ charKey a < charKey b by omega])
            · have hk : charKey a = charKey b := by omega
              have ha : a = b := Char.ext (UInt32.toNat.inj hk)
              have h1b : lexLe as bs = true := by
                simpa [lexLe, hk1, hk2] using h1
              have h2b : lexLe bs as = true := by
                simpa [lexLe, hk1, hk2] using h2
              rw [ha, ih bs h1b h2b]

/-- A canonical iteration order for a hash set of names: enumerate the
elements in `strLe`-sorted order.  Any fixed order is an equally faithful
determinization of the unspecified `FxHashSet` iteration order. -/
def enumNames (s : Finset String) : List String :=
  Quot.liftOn s.val (fun l => l.insertionSort strLe)
    (fun l₁ l₂ h =>
      List.eq_of_perm_of_sorted
        ((List.perm_insertionSort _ l₁).trans
          (h.trans (List.perm_insertionSort _ l₂).symm))
        (List.sorted_insertionSort _ l₁) (List.sorted_insertionSort _ l₂))

/-- `Export::run_once` with the canonical (sorted) iteration order. -/
def run_once (g : List ModuleRecord) (fuel : Nat) (m : ModuleRecord) :
    Option (List (Span × String)) :=
  runOnceWith g fuel enumNames m

/-- Diagnostic severity, mirroring `miette::Severity` as used by the rule. -/
inductive Severity where
  | warning
  | error
deriving DecidableEq, Repr

/-- A rendered diagnostic: location, conflicting name, severity and message,
mirroring `ExportDiagnostic::NamedExport(#[label] Span, Atom)` with its
`#[error(...)]` template and `#[diagnostic(severity(warning))]`. -/
structure Diagnostic where
  span : Span
  name : String
  severity : Severity
  message : String
deriving DecidableEq, Repr

/-- `ExportDiagnostic::NamedExport(span, name)`: fixed warning severity and
the fixed message template
`eslint-plugin-import(export): Multiple exports of name '{1}'.`. -/
def namedExport (s : Span) (n : String) : Diagnostic :=
  { span := s
    name := n
    severity := Severity.warning
    message :=
      "eslint-plugin-import(export): Multiple exports of name '" ++ n ++ "'." }

/-- The final `for (span, name) in duplicated_named_export` loop of
`Export::run_once`, emitting one diagnostic per surviving pair. -/
def runOnceDiagnostics (g : List ModuleRecord) (fuel : Nat)
    (m : ModuleRecord) : Option (List Diagnostic) :=
  (run_once g fuel m).map (List.map (fun p => namedExport p.1 p.2))

/-- The names contributed by one star-export entry of `run_once`: an absent
or unresolved specifier contributes the empty set; a resolved one contributes
the target's transitive collection (which may run out of fuel). -/
def entryNames (g : List ModuleRecord) (fuel : Nat) (m : ModuleRecord) :
    Option String → Option (Finset String)
  | none => some ∅
  | some spec =>
      match loadedLookup g m spec with
      | none => some ∅
      | some remote => collectFuel g fuel ∅ remote

/-- Union of the per-entry name sets over a list of star-export entries. -/
def unionNames (g : List ModuleRecord) (fuel : Nat) (m : ModuleRecord) :
    List (Option String) → Option (Finset String)
  | [] => some ∅
  | req :: rest =>
      match entryNames g fuel m req, unionNames g fuel m rest with
      | some s, some t => some (s ∪ t)
      | _, _ => none

/-- Union of the per-entry name sets over all of a module's entries. -/
def totalNames (g : List ModuleRecord) (fuel : Nat) (m : ModuleRecord) :
    Option (Finset String) :=
  unionNames g fuel m m.star_export_entries

/-- The resolved target of one star-export entry, if any. -/
def entryTarget (g : List ModuleRecord) (m : ModuleRecord) :
    Option String → Option ModuleRecord
  | none => none
  | some spec => loadedLookup g m spec

/-- The modules reached by the resolvable star-export entries of `m`, in
order; unresolved entries are dropped. -/
def resolvedTargets (g : List ModuleRecord) (m : ModuleRecord) :
    List ModuleRecord :=
  m.star_export_entries.filterMap (entryTarget g m)

/-- Collect each target's transitive names independently (with an empty
accumulator); `none` when any of them runs out of fuel. -/
def collectEach (g : List ModuleRecord) (fuel : Nat) :
    List ModuleRecord → Option (List (Finset String))
  | [] => some []
  | t :: ts =>
      match collectFuel g fuel ∅ t, collectEach g fuel ts with
      | some s, some ss => some (s :: ss)
      | _, _ => none

/-- Fold a list of name sets into their union. -/
def unionList (ss : List (Finset String)) : Finset String :=
  ss.foldr (fun s t => s ∪ t) ∅

/-- The local export table has pairwise-distinct names (guaranteed by the
real `FxHashMap`). -/
abbrev NamesNodup (m : ModuleRecord) : Prop :=
  (m.exported_bindings.map Prod.fst).Nodup

/-- The local export table has pairwise-distinct spans (the upstream
guarantee that each location carries at most one local export name). -/
abbrev SpansNodup (m : ModuleRecord) : Prop :=
  (m.exported_bindings.map Prod.snd).Nodup

/-- `ord` is a faithful iteration order for hash sets of names: it
enumerates exactly the elements of the set. -/
def GoodOrd (ord : Finset String → List String) : Prop :=
  ∀ (s : Finset String) (n : String), n ∈ ord s ↔ n ∈ s

/-- A star-export entry that contributes nothing: either it has no
`module_request`, or its specifier does not resolve to a loaded module. -/
def Unresolved (g : List ModuleRecord) (m : ModuleRecord)
    (req : Option String) : Prop :=
  req = none ∨ ∃ spec, req = some spec ∧ loadedLookup g m spec = none

/-- The reversed canonical iteration order: a second faithful hash-set
iteration order, used to compare two runs that iterate differently. -/
def revNames (s : Finset String) : List String :=
  (enumNames s).reverse

/-- Cyclic fixture: module 0 wildcard-re-exports module 1. -/
def mCyc1 : ModuleRecord :=
  { exported_bindings := [("foo", ⟨0, 3⟩)]
    star_export_entries := [some "m2"]
    loaded_modules := [("m2", 1)] }

/-- Cyclic fixture: module 1 wildcard-re-exports module 0. -/
def mCyc2 : ModuleRecord :=
  { exported_bindings := [("bar", ⟨10, 13⟩)]
    star_export_entries := [some "m1"]
    loaded_modules := [("m1", 0)] }

/-- The two-module cyclic wildcard re-export graph. -/
def gCyc : List ModuleRecord := [mCyc1, mCyc2]

/-- Witness fixture: the span of the local `foo` export of `mW`. -/
def spanW : Span := ⟨4, 7⟩

/-- Witness fixture: a leaf module exporting `foo`. -/
def otherW : ModuleRecord :=
  { exported_bindings := [("foo", ⟨100, 103⟩)]
    star_export_entries := []
    loaded_modules := [] }

/-- Witness fixture: a module locally exporting `foo` and
wildcard-re-exporting `otherW`, which also exports `foo`. -/
def mW : ModuleRecord :=
  { exported_bindings := [("foo", spanW)]
    star_export_entries := [some "./other"]
    loaded_modules := [("./other", 1)] }

/-- Witness fixture graph for `mW`. -/
def gW : List ModuleRecord := [mW, otherW]

/-- Two-hop fixture: span of the local `bar` export of `mD`. -/
def spanD : Span := ⟨20, 23⟩

/-- Two-hop fixture: root module, locally exports `bar` and
wildcard-re-exports `nD`. -/
def mD : ModuleRecord :=
  { exported_bindings := [("bar", spanD)]
    star_export_entries := [some "./n"]
    loaded_modules := [("./n", 1)] }

/-- Two-hop fixture: intermediate module, no local exports,
wildcard-re-exports `oD`. -/
def nD : ModuleRecord :=
  { exported_bindings := []
    star_export_entries := [some "./o"]
    loaded_modules := [("./o", 2)] }

/-- Two-hop fixture: leaf module exporting `bar`. -/
def oD : ModuleRecord :=
  { exported_bindings := [("bar", ⟨200, 203⟩)]
    star_export_entries := []
    loaded_modules := [] }

/-- Two-hop fixture graph. -/
def gD : List ModuleRecord := [mD, nD, oD]

/-- Permutation fixture: leaf module exporting `foo`. -/
def aP : ModuleRecord :=
  { exported_bindings := [("foo", ⟨300, 303⟩)]
    star_export_entries := []
    loaded_modules := [] }

/-- Permutation fixture: leaf module exporting `baz`. -/
def bP : ModuleRecord :=
  { exported_bindings := [("baz", ⟨400, 403⟩)]
    star_export_entries := []
    loaded_modules := [] }

/-- Permutation fixture: root module with two wildcard directives. -/
def mP : ModuleRecord :=
  { exported_bindings := [("foo", ⟨30, 33⟩), ("baz", ⟨40, 43⟩)]
    star_export_entries := [some "./a", some "./b"]
    loaded_modules := [("./a", 1), ("./b", 2)] }

/-- Permutation fixture: `mP` with its two directives swapped. -/
def mPswap : ModuleRecord :=
  { exported_bindings := [("foo", ⟨30, 33⟩), ("baz", ⟨40, 43⟩)]
    star_export_entries := [some "./b", some "./a"]
    loaded_modules := [("./a", 1), ("./b", 2)] }

/-- Permutation fixture graph. -/
def gP : List ModuleRecord := [mP, aP, bP]

/-- Degenerate fixture violating the upstream uniqueness guarantee: two
distinct local export names share one span. -/
def mDeg : ModuleRecord :=
  { exported_bindings := [("x", ⟨1, 2⟩), ("y", ⟨1, 2⟩)]
    star_export_entries := [some "./z"]
    loaded_modules := [("./z", 1)] }

/-- Degenerate fixture: leaf module exporting both colliding names. -/
def zDeg : ModuleRecord :=
  { exported_bindings := [("x", ⟨500, 501⟩), ("y", ⟨510, 511⟩)]
    star_export_entries := []
    loaded_modules := [] }

/-- Degenerate fixture graph. -/
def gDeg : List ModuleRecord := [mDeg, zDeg]

/-- `mW` with an extra wildcard directive whose specifier does not resolve. -/
def mWplus : ModuleRecord :=
  { mW with star_export_entries := [some "./missing", some "./other"] }

/-- Every pair of the candidate map is justified by the local export table:
its name looks up to exactly its span. -/
def DupLegit (bs : List (String × Span)) (dup : List (Span × String)) : Prop :=
  ∀ p ∈ dup, lookupA bs p.2 = some p.1

/-- The candidate map has pairwise-distinct span keys. -/
abbrev KeysNodup (dup : List (Span × String)) : Prop :=
  (dup.map Prod.fst).Nodup

theorem lookupA_mem {α β : Type} [DecidableEq α] {l : List (α × β)} {a : α}
    {b : β} (h : lookupA l a = some b) : (a, b) ∈ l := by
  induction l with
  | nil => simp [lookupA] at h
  | cons p rest ih =>
      obtain ⟨k, v⟩ := p
      by_cases hk : k = a
      · subst hk
        simp [lookupA] at h
        simp [h]
      · simp [lookupA, hk] at h
        exact List.mem_cons_of_mem _ (ih h)

theorem lookupA_eq_none_iff {α β : Type} [DecidableEq α] {l : List (α × β)}
    {a : α} : lookupA l a = none ↔ a ∉ l.map Prod.fst := by
  induction l with
  | nil => simp [lookupA]
  | cons p rest ih =>
      obtain ⟨k, v⟩ := p
      by_cases hk : k = a
      · subst hk
        simp [lookupA]
      · simp [lookupA, hk, ih, Ne.symm hk]

theorem lookupA_mem_of_nodup {α β : Type} [DecidableEq α] {l : List (α × β)}
    {a : α} {b : β} (hnd : (l.map Prod.fst).Nodup) (h : (a, b) ∈ l) :
    lookupA l a = some b := by
  induction l with
  | nil => simp at h
  | cons p rest ih =>
      obtain ⟨k, v⟩ := p
      simp only [List.map_cons, List.nodup_cons] at hnd
      rcases List.mem_cons.mp h with h1 | h1
      · obtain ⟨ha, hb⟩ := Prod.ext_iff.mp h1
        simp only at ha hb
        subst ha
        subst hb
        simp [lookupA]
      · have hka : k ≠ a := by
          intro hk
          subst hk
          exact hnd.1 (List.mem_map_of_mem Prod.fst h1)
        simp only [lookupA, if_neg hka]
        exact ih hnd.2 h1

theorem lookupA_snd_inj {bs : List (String × Span)}
    (hS : (bs.map Prod.snd).Nodup) {n₁ n₂ : String} {s : Span}
    (h₁ : lookupA bs n₁ = some s) (h₂ : lookupA bs n₂ = some s) : n₁ = n₂ := by
  have m₁ := lookupA_mem h₁
  have m₂ := lookupA_mem h₂
  have h := List.inj_on_of_nodup_map hS m₁ m₂ rfl
  exact congrArg Prod.fst h

theorem mem_insertNamed {dup : List (Span × String)} {s : Span} {n : String}
    {x : Span × String} (h : x ∈ insertNamed dup s n) :
    x ∈ dup ∨ x = (s, n) := by
  unfold insertNamed at h
  rcases hl : lookupA dup s with _ | v
  · rw [hl] at h
    rcases List.mem_append.mp h with h1 | h1
    · exact Or.inl h1
    · simp at h1
      exact Or.inr h1
  · rw [hl] at h
    exact Or.inl h

theorem insertNamed_keysNodup {dup : List (Span × String)} {s : Span}
    {n : String} (h : KeysNodup dup) : KeysNodup (insertNamed dup s n) := by
  unfold insertNamed
  rcases hl : lookupA dup s with _ | v
  · have hs : s ∉ dup.map Prod.fst := lookupA_eq_none_iff.mp hl
    unfold KeysNodup at h ⊢
    simp [List.nodup_append, h, hs]
  · exact h

theorem insertNamed_legit {bs : List (String × Span)}
    {dup : List (Span × String)} {s : Span} {n : String}
    (h : DupLegit bs dup) (hn : lookupA bs n = some s) :
    DupLegit bs (insertNamed dup s n) := by
  intro p hp
  rcases mem_insertNamed hp with h1 | h1
  · exact h p h1
  · subst h1
    exact hn

theorem mem_insertNamed_iff {bs : List (String × Span)}
    {dup : List (Span × String)} {s : Span} {n : String}
    (hS : (bs.map Prod.snd).Nodup) (hleg : DupLegit bs dup)
    (hn : lookupA bs n = some s) (x : Span × String) :
    x ∈ insertNamed dup s n ↔ x ∈ dup ∨ x = (s, n) := by
  constructor
  · exact mem_insertNamed
  · intro h
    unfold insertNamed
    rcases hl : lookupA dup s with _ | v
    · rcases h with h1 | h1
      · exact List.mem_append.mpr (Or.inl h1)
      · subst h1
        simp
    · have hv : (s, v) ∈ dup := lookupA_mem hl
      have hvs : lookupA bs v = some s := hleg _ hv
      have : v = n := lookupA_snd_inj hS hvs hn
      subst this
      rcases h with h1 | h1
      · exact h1
      · subst h1
        exact hv

theorem processNames_legit {bs : List (String × Span)}
    {dup : List (Span × String)} {L : List String}
    (h : DupLegit bs dup) : DupLegit bs (processNames bs dup L) := by
  induction L generalizing dup with
  | nil => exact h
  | cons n rest ih =>
      rcases hn : lookupA bs n with _ | s
      · simpa [processNames, hn] using ih h
      · simpa [processNames, hn] using ih (insertNamed_legit h hn)

theorem processNames_keysNodup {bs : List (String × Span)}
    {dup : List (Span × String)} {L : List String}
    (h : KeysNodup dup) : KeysNodup (processNames bs dup L) := by
  induction L generalizing dup with
  | nil => exact h
  | cons n rest ih =>
      rcases hn : lookupA bs n with _ | s
      · simpa [processNames, hn] using ih h
      · simpa [processNames, hn] using ih (insertNamed_keysNodup h)

theorem mem_processNames {bs : List (String × Span)}
    {dup : List (Span × String)} {L : List String} {x : Span × String}
    (h : x ∈ processNames bs dup L) :
    x ∈ dup ∨ (x.2 ∈ L ∧ lookupA bs x.2 = some x.1) := by
  induction L generalizing dup with
  | nil => exact Or.inl h
  | cons n rest ih =>
      rcases hn : lookupA bs n with _ | s
      · rw [processNames, hn] at h
        rcases ih h with h1 | h1
        · exact Or.inl h1
        · exact Or.inr ⟨List.mem_cons_of_mem _ h1.1, h1.2⟩
      · rw [processNames, hn] at h
        rcases ih h with h1 | h1
        · rcases mem_insertNamed h1 with h2 | h2
          · exact Or.inl h2
          · subst h2
            exact Or.inr ⟨List.mem_cons_self _ _, hn⟩
        · exact Or.inr ⟨List.mem_cons_of_mem _ h1.1, h1.2⟩

theorem mem_processNames_iff {bs : List (String × Span)}
    {dup : List (Span × String)} {L : List String}
    (hS : (bs.map Prod.snd).Nodup) (hleg : DupLegit bs dup)
    (x : Span × String) :
    x ∈ processNames bs dup L ↔
      x ∈ dup ∨ (x.2 ∈ L ∧ lookupA bs x.2 = some x.1) := by
  induction L generalizing dup with
  | nil => simp [processNames]
  | cons n rest ih =>
      rcases hn : lookupA bs n with _ | s
      · rw [processNames, hn, ih hleg]
        constructor
        · intro h
          rcases h with h1 | h1
          · exact Or.inl h1
          · exact Or.inr ⟨List.mem_cons_of_mem _ h1.1, h1.2⟩
        · intro h
          rcases h with h1 | h1
          · exact Or.inl h1
          · rcases List.mem_cons.mp h1.1 with h2 | h2
            · rw [h2] at h1
              rw [h1.2] at hn
              exact absurd hn (by simp)
            · exact Or.inr ⟨h2, h1.2⟩
      · rw [processNames, hn, ih (insertNamed_legit hleg hn)]
        rw [mem_insertNamed_iff hS hleg hn]
        constructor
        · intro h
          rcases h with (h1 | h1) | h1
          · exact Or.inl h1
          · subst h1
            exact Or.inr ⟨List.mem_cons_self _ _, hn⟩
          · exact Or.inr ⟨List.mem_cons_of_mem _ h1.1, h1.2⟩
        · intro h
          rcases h with h1 | h1
          · exact Or.inl (Or.inl h1)
          · rcases List.mem_cons.mp h1.1 with h2 | h2
            · refine Or.inl (Or.inr ?_)
              have hx1 : lookupA bs x.2 = some x.1 := h1.2
              rw [h2, hn] at hx1
              have : x.1 = s := by
                injection hx1.symm
              exact Prod.ext this h2
            · exact Or.inr ⟨h2, h1.2⟩

theorem processEntries_none_iff {g : List ModuleRecord} {fuel : Nat}
    {ord : Finset String → List String} {m : ModuleRecord}
    {dup : List (Span × String)} {l : List (Option String)} :
    processEntries g fuel ord m dup l = none ↔
      unionNames g fuel m l = none := by
  induction l generalizing dup with
  | nil => simp [processEntries, unionNames]
  | cons req rest ih =>
      rcases req with _ | spec
      · rw [processEntries, ih]
        rcases hrest : unionNames g fuel m rest with _ | t <;>
          simp [unionNames, entryNames, hrest]
      · rcases hl : loadedLookup g m spec with _ | remote
        · rw [processEntries, hl]
          simp only []
          rw [ih]
          rcases hrest : unionNames g fuel m rest with _ | t <;>
            simp [unionNames, entryNames, hl, hrest]
        · rcases hc : collectFuel g fuel ∅ remote with _ | names
          · simp [processEntries, hl, hc, unionNames, entryNames]
          · rw [processEntries, hl]
            simp only [hc]
            rw [ih]
            rcases hrest : unionNames g fuel m rest with _ | t <;>
              simp [unionNames, entryNames, hl, hc, hrest]

theorem processEntries_inv {g : List ModuleRecord} {fuel : Nat}
    {ord : Finset String → List String} {m : ModuleRecord}
    {dup out : List (Span × String)} {l : List (Option String)}
    (hord : GoodOrd ord)
    (hleg : DupLegit m.exported_bindings dup) (hkey : KeysNodup dup)
    (h : processEntries g fuel ord m dup l = some out) :
    DupLegit m.exported_bindings out ∧ KeysNodup out ∧
      ∀ x ∈ out, x ∈ dup ∨ ∃ spec remote names, some spec ∈ l ∧
        loadedLookup g m spec = some remote ∧
        collectFuel g fuel ∅ remote = some names ∧ x.2 ∈ names := by
  induction l generalizing dup with
  | nil =>
      rw [processEntries] at h
      injection h with h
      subst h
      exact ⟨hleg, hkey, fun x hx => Or.inl hx⟩
  | cons req rest ih =>
      rcases req with _ | spec
      · rw [processEntries] at h
        obtain ⟨l1, l2, l3⟩ := ih hleg hkey h
        refine ⟨l1, l2, fun x hx => ?_⟩
        rcases l3 x hx with h1 | ⟨sp, r, ns, h2⟩
        · exact Or.inl h1
        · exact Or.inr ⟨sp, r, ns, List.mem_cons_of_mem _ h2.1, h2.2⟩
      · rcases hl : loadedLookup g m spec with _ | remote
        · rw [processEntries, hl] at h
          obtain ⟨l1, l2, l3⟩ := ih hleg hkey h
          refine ⟨l1, l2, fun x hx => ?_⟩
          rcases l3 x hx with h1 | ⟨sp, r, ns, h2⟩
          · exact Or.inl h1
          · exact Or.inr ⟨sp, r, ns, List.mem_cons_of_mem _ h2.1, h2.2⟩
        · rcases hc : collectFuel g fuel ∅ remote with _ | names
          · rw [processEntries, hl] at h
            simp [hc] at h
          · rw [processEntries, hl] at h
            simp only [hc] at h
            obtain ⟨l1, l2, l3⟩ :=
              ih (processNames_legit hleg) (processNames_keysNodup hkey) h
            refine ⟨l1, l2, fun x hx => ?_⟩
            rcases l3 x hx with h1 | ⟨sp, r, ns, h2⟩
            · rcases mem_processNames h1 with h2 | h2
              · exact Or.inl h2
              · refine Or.inr ⟨spec, remote, names,
                  List.mem_cons_self _ _, hl, hc, ?_⟩
                exact (hord names x.2).mp h2.1
            · exact Or.inr ⟨sp, r, ns, List.mem_cons_of_mem _ h2.1, h2.2⟩

theorem processEntries_char {g : List ModuleRecord} {fuel : Nat}
    {ord : Finset String → List String} {m : ModuleRecord}
    {dup : List (Span × String)} {l : List (Option String)}
    {U : Finset String}
    (hS : (m.exported_bindings.map Prod.snd).Nodup) (hord : GoodOrd ord)
    (hleg : DupLegit m.exported_bindings dup)
    (hU : unionNames g fuel m l = some U) :
    ∃ out, processEntries g fuel ord m dup l = some out ∧
      ∀ x, x ∈ out ↔ x ∈ dup ∨
        (x.2 ∈ U ∧ lookupA m.exported_bindings x.2 = some x.1) := by
  induction l generalizing dup U with
  | nil =>
      rw [unionNames] at hU
      injection hU with hU
      subst hU
      exact ⟨dup, rfl, fun x => by simp [processEntries]⟩
  | cons req rest ih =>
      rcases req with _ | spec
      · rcases hrest : unionNames g fuel m rest with _ | t
        · simp [unionNames, entryNames, hrest] at hU
        · rw [unionNames] at hU
          simp only [entryNames, hrest] at hU
          injection hU with hU
          subst hU
          obtain ⟨out, hout, hmem⟩ := ih hleg hrest
          refine ⟨out, by rw [processEntries]; exact hout, fun x => ?_⟩
          rw [hmem x]
          simp
      · rcases hl : loadedLookup g m spec with _ | remote
        · rcases hrest : unionNames g fuel m rest with _ | t
          · simp [unionNames, entryNames, hl, hrest] at hU
          · rw [unionNames] at hU
            simp only [entryNames, hl, hrest] at hU
            injection hU with hU
            subst hU
            obtain ⟨out, hout, hmem⟩ := ih hleg hrest
            refine ⟨out, by rw [processEntries, hl]; exact hout, fun x => ?_⟩
            rw [hmem x]
            simp
        · rcases hc : collectFuel g fuel ∅ remote with _ | names
          · simp [unionNames, entryNames, hl, hc] at hU
          · rcases hrest : unionNames g fuel m rest with _ | t
            · simp [unionNames, entryNames, hl, hc, hrest] at hU
            · rw [unionNames] at hU
              simp only [entryNames, hl, hc, hrest] at hU
              injection hU with hU
              subst hU
              obtain ⟨out, hout, hmem⟩ :=
                ih (processNames_legit hleg) hrest
              refine ⟨out, ?_, fun x => ?_⟩
              · rw [processEntries, hl]
                simp only [hc]
                exact hout
              · rw [hmem x,
                  mem_processNames_iff hS hleg x, Finset.mem_union]
                have hx2 : x.2 ∈ ord names ↔ x.2 ∈ names := hord names x.2
                tauto

theorem goodOrd_enumNames : GoodOrd enumNames := by
  intro s n
  obtain ⟨val, nd⟩ := s
  revert nd
  induction val using Quotient.inductionOn with
  | h l =>
      intro nd
      have h1 : (n ∈ enumNames ⟨Quotient.mk _ l, nd⟩) =
          (n ∈ List.insertionSort strLe l) := rfl
      rw [h1, (List.perm_insertionSort strLe l).mem_iff, Finset.mem_mk]
      simp

theorem runOnceWith_none_iff {g : List ModuleRecord} {fuel : Nat}
    {ord : Finset String → List String} {m : ModuleRecord} :
    runOnceWith g fuel ord m = none ↔ totalNames g fuel m = none := by
  unfold runOnceWith totalNames
  rcases he : m.star_export_entries with _ | ⟨req, rest⟩
  · simp [unionNames]
  · simp only [List.isEmpty_cons, Bool.false_eq_true, if_false,
      processEntries_none_iff]

theorem runOnceWith_char {g : List ModuleRecord} {fuel : Nat}
    {ord : Finset String → List String} {m : ModuleRecord}
    {U : Finset String}
    (hS : (m.exported_bindings.map Prod.snd).Nodup) (hord : GoodOrd ord)
    (hU : totalNames g fuel m = some U) :
    ∃ out, runOnceWith g fuel ord m = some out ∧
      DupLegit m.exported_bindings out ∧ KeysNodup out ∧
      ∀ x, x ∈ out ↔
        x.2 ∈ U ∧ lookupA m.exported_bindings x.2 = some x.1 := by
  unfold runOnceWith
  unfold totalNames at hU
  rcases he : m.star_export_entries with _ | ⟨req, rest⟩
  · rw [he] at hU
    rw [unionNames] at hU
    injection hU with hU
    subst hU
    refine ⟨[], by simp, fun p hp => absurd hp (List.not_mem_nil p), by
      simp [KeysNodup], fun x => by simp⟩
  · rw [he] at hU
    have hleg : DupLegit m.exported_bindings [] :=
      fun p hp => absurd hp (List.not_mem_nil p)
    obtain ⟨out, hout, hmem⟩ := processEntries_char hS hord hleg hU
    obtain ⟨l1, l2, _⟩ := processEntries_inv hord hleg (by simp [KeysNodup]) hout
    refine ⟨out, ?_, l1, l2, fun x => ?_⟩
    · simp only [List.isEmpty_cons, if_neg]
      simpa using hout
    · rw [hmem x]
      simp

theorem unionNames_perm {g : List ModuleRecord} {fuel : Nat}
    {m : ModuleRecord} {l₁ l₂ : List (Option String)} (h : l₁.Perm l₂) :
    unionNames g fuel m l₁ = unionNames g fuel m l₂ := by
  induction h with
  | nil => rfl
  | cons x h ih => rw [unionNames, unionNames, ih]
  | swap x y l =>
      rcases hx : entryNames g fuel m x with _ | sx <;>
        rcases hy : entryNames g fuel m y with _ | sy <;>
        rcases hu : unionNames g fuel m l with _ | su <;>
        simp [unionNames, hx, hy, hu, Finset.union_left_comm]
  | trans h₁ h₂ ih₁ ih₂ => exact ih₁.trans ih₂

theorem unionNames_congr {g : List ModuleRecord} {fuel : Nat}
    {m₁ m₂ : ModuleRecord} {l : List (Option String)}
    (h : m₁.loaded_modules = m₂.loaded_modules) :
    unionNames g fuel m₁ l = unionNames g fuel m₂ l := by
  have hload : ∀ spec, loadedLookup g m₁ spec = loadedLookup g m₂ spec := by
    intro spec
    unfold loadedLookup
    rw [h]
  have hentry : ∀ req, entryNames g fuel m₁ req = entryNames g fuel m₂ req := by
    intro req
    rcases req with _ | spec
    · rfl
    · rw [entryNames, entryNames, hload spec]
  induction l with
  | nil => rfl
  | cons req rest ih => rw [unionNames, unionNames, ih, hentry req]

theorem unionNames_subset {g : List ModuleRecord} {fuel : Nat}
    {m : ModuleRecord} {l : List (Option String)} {req : Option String}
    {s U : Finset String} (hreq : req ∈ l)
    (hs : entryNames g fuel m req = some s)
    (hU : unionNames g fuel m l = some U) : s ⊆ U := by
  induction l generalizing U with
  | nil => exact absurd hreq (List.not_mem_nil req)
  | cons r rest ih =>
      rw [unionNames] at hU
      rcases hr : entryNames g fuel m r with _ | sr <;> rw [hr] at hU
      · exact absurd hU (by simp)
      · rcases hrest : unionNames g fuel m rest with _ | t <;>
          rw [hrest] at hU
        · exact absurd hU (by simp)
        · injection hU with hU
          subst hU
          rcases List.mem_cons.mp hreq with h1 | h1
          · subst h1
            rw [hr] at hs
            injection hs with hs
            subst hs
            exact Finset.subset_union_left
          · exact (ih h1 hrest).trans Finset.subset_union_right

theorem collectEntries_congr {g : List ModuleRecord} {m₁ m₂ : ModuleRecord}
    {recur : Finset String → ModuleRecord → Option (Finset String)}
    (h : m₁.loaded_modules = m₂.loaded_modules) :
    ∀ (l : List (Option String)) (acc : Finset String),
      collectEntries g m₁ recur acc l = collectEntries g m₂ recur acc l := by
  have hload : ∀ spec, loadedLookup g m₁ spec = loadedLookup g m₂ spec := by
    intro spec
    unfold loadedLookup
    rw [h]
  intro l
  induction l with
  | nil => intro acc; rfl
  | cons req rest ih =>
      intro acc
      rcases req with _ | spec
      · rw [collectEntries, collectEntries, ih]
      · rcases hl : loadedLookup g m₁ spec with _ | t
        · have hl2 : loadedLookup g m₂ spec = none := (hload spec).symm.trans hl
          simp only [collectEntries, hl, hl2]
          exact ih acc
        · have hl2 : loadedLookup g m₂ spec = some t :=
            (hload spec).symm.trans hl
          simp only [collectEntries, hl, hl2]
          rcases hr : recur acc t with _ | acc2
          · simp only [hr]
          · simp only [hr]
            exact ih acc2

theorem collectEntries_skip {g : List ModuleRecord} {m : ModuleRecord}
    {recur : Finset String → ModuleRecord → Option (Finset String)}
    {req : Option String} (hu : Unresolved g m req) :
    ∀ (l1 l2 : List (Option String)) (acc : Finset String),
      collectEntries g m recur acc (l1 ++ req :: l2) =
        collectEntries g m recur acc (l1 ++ l2) := by
  intro l1
  induction l1 with
  | nil =>
      intro l2 acc
      rcases hu with h | ⟨spec, hspec, hl⟩
      · subst h
        rfl
      · subst hspec
        simp only [List.nil_append, collectEntries, hl]
  | cons r rest ih =>
      intro l2 acc
      rcases r with _ | spec
      · simp only [List.cons_append, collectEntries]
        exact ih l2 acc
      · rcases hl : loadedLookup g m spec with _ | t
        · simp only [List.cons_append, collectEntries, hl]
          exact ih l2 acc
        · simp only [List.cons_append, collectEntries, hl]
          rcases hr : recur acc t with _ | acc2
          · simp only [hr]
          · simp only [hr]
            exact ih l2 acc2

theorem processEntries_congr {g : List ModuleRecord} {fuel : Nat}
    {ord : Finset String → List String} {m₁ m₂ : ModuleRecord}
    (h : m₁.loaded_modules = m₂.loaded_modules)
    (hb : m₁.exported_bindings = m₂.exported_bindings) :
    ∀ (l : List (Option String)) (dup : List (Span × String)),
      processEntries g fuel ord m₁ dup l =
        processEntries g fuel ord m₂ dup l := by
  have hload : ∀ spec, loadedLookup g m₁ spec = loadedLookup g m₂ spec := by
    intro spec
    unfold loadedLookup
    rw [h]
  intro l
  induction l with
  | nil => intro dup; rfl
  | cons req rest ih =>
      intro dup
      rcases req with _ | spec
      · rw [processEntries, processEntries, ih]
      · rcases hl : loadedLookup g m₁ spec with _ | remote
        · have hl2 : loadedLookup g m₂ spec = none := (hload spec).symm.trans hl
          simp only [processEntries, hl, hl2]
          exact ih dup
        · have hl2 : loadedLookup g m₂ spec = some remote :=
            (hload spec).symm.trans hl
          simp only [processEntries, hl, hl2]
          rcases hc : collectFuel g fuel ∅ remote with _ | names
          · simp only [hc]
          · simp only [hc, hb]
            exact ih _

theorem processEntries_skip {g : List ModuleRecord} {fuel : Nat}
    {ord : Finset String → List String} {m : ModuleRecord}
    {req : Option String} (hu : Unresolved g m req) :
    ∀ (l1 l2 : List (Option String)) (dup : List (Span × String)),
      processEntries g fuel ord m dup (l1 ++ req :: l2) =
        processEntries g fuel ord m dup (l1 ++ l2) := by
  intro l1
  induction l1 with
  | nil =>
      intro l2 dup
      rcases hu with h | ⟨spec, hspec, hl⟩
      · subst h
        rfl
      · subst hspec
        simp only [List.nil_append, processEntries, hl]
  | cons r rest ih =>
      intro l2 dup
      rcases r with _ | spec
      · simp only [List.cons_append, processEntries]
        exact ih l2 dup
      · rcases hl : loadedLookup g m spec with _ | remote
        · simp only [List.cons_append, processEntries, hl]
          exact ih l2 dup
        · simp only [List.cons_append, processEntries, hl]
          rcases hc : collectFuel g fuel ∅ remote with _ | names
          · simp only [hc]
          · simp only [hc]
            exact ih l2 _

theorem collectEntries_union {g : List ModuleRecord} {m : ModuleRecord}
    {recur : Finset String → ModuleRecord → Option (Finset String)}
    (hrec : ∀ acc t, recur acc t =
      (recur ∅ t).map (fun s => acc ∪ s)) :
    ∀ (l : List (Option String)) (a b : Finset String),
      collectEntries g m recur (b ∪ a) l =
        (collectEntries g m recur a l).map (fun s => b ∪ s) := by
  intro l
  induction l with
  | nil => intro a b; rfl
  | cons req rest ih =>
      intro a b
      rcases req with _ | spec
      · simp only [collectEntries]
        exact ih a b
      · rcases hl : loadedLookup g m spec with _ | t
        · simp only [collectEntries, hl]
          exact ih a b
        · simp only [collectEntries, hl]
          rcases hre : recur ∅ t with _ | s
          · rw [hrec (b ∪ a) t, hrec a t, hre]
            rfl
          · rw [hrec (b ∪ a) t, hrec a t, hre]
            show collectEntries g m recur ((b ∪ a) ∪ s) rest =
              (collectEntries g m recur (a ∪ s) rest).map (fun s => b ∪ s)
            rw [Finset.union_assoc]
            exact ih (a ∪ s) b

theorem collectFuel_union {g : List ModuleRecord} :
    ∀ (fuel : Nat) (acc : Finset String) (m : ModuleRecord),
      collectFuel g fuel acc m =
        (collectFuel g fuel ∅ m).map (fun s => acc ∪ s) := by
  intro fuel
  induction fuel with
  | zero => intro acc m; rfl
  | succ fuel ih =>
      intro acc m
      rw [collectFuel, collectFuel]
      have h : acc ∪ localNames m = acc ∪ (∅ ∪ localNames m) := by
        rw [Finset.empty_union]
      rw [h]
      exact collectEntries_union (fun a t => ih a t) _ _ acc

theorem collectEntries_decomp {g : List ModuleRecord} {fuel : Nat}
    {m : ModuleRecord} :
    ∀ (l : List (Option String)) (ss : List (Finset String))
      (a : Finset String),
      collectEach g fuel (l.filterMap (entryTarget g m)) = some ss →
      collectEntries g m (collectFuel g fuel) a l =
        some (a ∪ unionList ss) := by
  intro l
  induction l with
  | nil =>
      intro ss a h
      simp only [List.filterMap_nil, collectEach] at h
      injection h with h
      subst h
      rw [collectEntries, unionList]
      simp
  | cons req rest ih =>
      intro ss a h
      rcases req with _ | spec
      · simp only [List.filterMap_cons, entryTarget] at h
        simp only [collectEntries]
        exact ih ss a h
      · rcases hl : loadedLookup g m spec with _ | t
        · simp only [List.filterMap_cons, entryTarget, hl] at h
          simp only [collectEntries, hl]
          exact ih ss a h
        · simp only [List.filterMap_cons, entryTarget, hl] at h
          rw [collectEach] at h
          rcases hct : collectFuel g fuel ∅ t with _ | s <;> rw [hct] at h
          · exact absurd h (by simp)
          · rcases hce : collectEach g fuel (rest.filterMap (entryTarget g m))
                with _ | ss2 <;> rw [hce] at h
            · exact absurd h (by simp)
            · injection h with h
              subst h
              simp only [collectEntries, hl]
              rw [collectFuel_union fuel a t, hct]
              show collectEntries g m (collectFuel g fuel) (a ∪ s) rest =
                some (a ∪ unionList (s :: ss2))
              rw [ih ss2 (a ∪ s) hce]
              simp only [unionList, List.foldr_cons, Finset.union_assoc]

theorem goodOrd_revNames : GoodOrd revNames := by
  intro s n
  rw [revNames, List.mem_reverse]
  exact goodOrd_enumNames s n

theorem cyc_collect_none :
    ∀ (fuel : Nat) (acc : Finset String),
      collectFuel gCyc fuel acc mCyc1 = none ∧
        collectFuel gCyc fuel acc mCyc2 = none := by
  intro fuel
  induction fuel with
  | zero => intro acc; exact ⟨rfl, rfl⟩
  | succ fuel ih =>
      intro acc
      constructor
      · have h2 := (ih (acc ∪ localNames mCyc1)).2
        rw [collectFuel]
        show collectEntries gCyc mCyc1 (collectFuel gCyc fuel)
          (acc ∪ localNames mCyc1) [some "m2"] = none
        have hl : loadedLookup gCyc mCyc1 "m2" = some mCyc2 := rfl
        simp only [collectEntries, hl, h2]
      · have h1 := (ih (acc ∪ localNames mCyc2)).1
        rw [collectFuel]
        show collectEntries gCyc mCyc2 (collectFuel gCyc fuel)
          (acc ∪ localNames mCyc2) [some "m1"] = none
        have hl : loadedLookup gCyc mCyc2 "m1" = some mCyc1 := rfl
        simp only [collectEntries, hl, h1]

theorem run_once_inv {g : List ModuleRecord} {fuel : Nat} {m : ModuleRecord}
    {out : List (Span × String)} (hrun : run_once g fuel m = some out) :
    DupLegit m.exported_bindings out ∧ KeysNodup out ∧
      ∀ x ∈ out, ∃ spec remote names, some spec ∈ m.star_export_entries ∧
        loadedLookup g m spec = some remote ∧
        collectFuel g fuel ∅ remote = some names ∧ x.2 ∈ names := by
  unfold run_once runOnceWith at hrun
  have hleg0 : DupLegit m.exported_bindings [] :=
    fun p hp => absurd hp (List.not_mem_nil p)
  have hkey0 : KeysNodup ([] : List (Span × String)) := List.nodup_nil
  rcases he : m.star_export_entries with _ | ⟨r, rest⟩
  · rw [he] at hrun
    simp only [List.isEmpty_nil, if_true] at hrun
    injection hrun with hrun
    subst hrun
    exact ⟨hleg0, hkey0, fun x hx => absurd hx (List.not_mem_nil x)⟩
  · rw [he] at hrun
    simp only [List.isEmpty_cons, Bool.false_eq_true, if_false] at hrun
    obtain ⟨l1, l2, l3⟩ :=
      processEntries_inv goodOrd_enumNames hleg0 hkey0 hrun
    refine ⟨l1, l2, fun x hx => ?_⟩
    rcases l3 x hx with h1 | ⟨spec, remote, names, h2⟩
    · exact absurd h1 (List.not_mem_nil x)
    · exact ⟨spec, remote, names, he ▸ h2.1, h2.2⟩

/-- C1 (code defect): on the two-module cyclic wildcard re-export graph
`gCyc` (module 0 wildcard-re-exports module 1 and vice versa), the collector
exhausts every finite recursion-depth budget: for all `fuel`, both the
fuelled `collect_exported_recursive` and the full `run_once` return `none`.
The Rust recursion, which this fuel bound conservatively over-approximates,
therefore never terminates — the spec's visited-set guard does not exist in
the code (`// TODO: support detect cycle`). -/
theorem cyclic_reexport_diverges (fuel : Nat) :
    collectFuel gCyc fuel ∅ mCyc1 = none ∧
      run_once gCyc fuel mCyc1 = none := by
  refine ⟨(cyc_collect_none fuel ∅).1, ?_⟩
  have hc := (cyc_collect_none fuel ∅).2
  unfold run_once runOnceWith
  show (if ([some "m2"] : List (Option String)).isEmpty then
    some [] else processEntries gCyc fuel enumNames mCyc1 [] [some "m2"]) =
      none
  have hl : loadedLookup gCyc mCyc1 "m2" = some mCyc2 := rfl
  simp only [List.isEmpty_cons, Bool.false_eq_true, if_false,
    processEntries, hl, hc]

/-- C3: a module with no wildcard re-export directives yields no diagnostics
regardless of its local exports (`run_once`'s fast path); local/local
conflicts are never considered. -/
theorem detect_empty_directives (g : List ModuleRecord) (fuel : Nat)
    (m : ModuleRecord) (h : m.star_export_entries = []) :
    run_once g fuel m = some [] := by
  unfold run_once runOnceWith
  rw [h]
  rfl

/-- Witness for `detect_empty_directives`: a concrete module with local
exports but no wildcard directives. -/
theorem detect_empty_directives_witness :
    otherW.star_export_entries = [] ∧ run_once [] 0 otherW = some [] :=
  ⟨rfl, detect_empty_directives [] 0 otherW rfl⟩

/-- C6: a successful transitive collection decomposes as the union of the
module's own local export names with the recursively collected name sets of
the targets of its resolvable wildcard directives; unresolved directives are
dropped by `resolvedTargets` and contribute nothing. -/
theorem collect_union_decomposition {g : List ModuleRecord} {fuel : Nat}
    {m : ModuleRecord} {ss : List (Finset String)}
    (h : collectEach g fuel (resolvedTargets g m) = some ss) :
    collectFuel g (fuel + 1) ∅ m = some (localNames m ∪ unionList ss) := by
  rw [collectFuel]
  have h2 : collectEach g fuel
      (m.star_export_entries.filterMap (entryTarget g m)) = some ss := h
  rw [collectEntries_decomp m.star_export_entries ss (∅ ∪ localNames m) h2,
    Finset.empty_union]

/-- Witness for `collect_union_decomposition` on the concrete graph `gW`. -/
theorem collect_union_decomposition_witness :
    collectEach gW 1 (resolvedTargets gW mW) = some [{"foo"}] ∧
      collectFuel gW 2 ∅ mW = some (localNames mW ∪ unionList [{"foo"}]) :=
  ⟨by decide, collect_union_decomposition (by decide)⟩

/-- C9: the diagnostics of a successful run always carry pairwise-distinct
source locations — the candidate map is keyed by span with a
first-insertion-wins policy — even with no assumption on the local export
table (in particular when two distinct names share one location). -/
theorem detect_locations_distinct {g : List ModuleRecord} {fuel : Nat}
    {m : ModuleRecord} {out : List (Span × String)}
    (hrun : run_once g fuel m = some out) :
    (out.map Prod.fst).Nodup :=
  (run_once_inv hrun).2.1

/-- Witness for `detect_locations_distinct` on the degenerate graph `gDeg`,
where two local export names share one span and both collide. -/
theorem detect_locations_distinct_witness :
    run_once gDeg 2 mDeg = some [(⟨1, 2⟩, "x")] ∧
      (([(((⟨1, 2⟩ : Span), "x"))].map Prod.fst).Nodup) :=
  ⟨by decide, detect_locations_distinct
    (by decide : run_once gDeg 2 mDeg = some [(⟨1, 2⟩, "x")])⟩

theorem count_eq_one_of_nodup_mem {α : Type} [BEq α] [LawfulBEq α]
    {l : List α} {a : α} (hnd : l.Nodup) (ha : a ∈ l) : l.count a = 1 := by
  induction l with
  | nil => cases ha
  | cons b l ih =>
      rw [List.count_cons]
      rcases List.mem_cons.mp ha with h | h
      · subst h
        rw [List.nodup_cons] at hnd
        rw [List.count_eq_zero.mpr hnd.1]
        simp
      · rw [List.nodup_cons] at hnd
        have hba : ¬ (b == a) = true := by
          intro hb
          have hba2 : b = a := eq_of_beq hb
          subst hba2
          exact hnd.1 h
        rw [ih hnd.2 h]
        simp [hba]

/-- C2: if module `m` locally exports `X` at span `S`, and `X` is reachable
through some wildcard directive of `m` (it lies in the successfully collected
transitive name set of the directive's resolved target), then a successful
run contains the diagnostic (S, X) exactly once, and no other diagnostic
carries the name `X` — however many reachability paths lead to `X`. -/
theorem detect_exactly_one_diagnostic {g : List ModuleRecord} {fuel : Nat}
    {m : ModuleRecord} {out : List (Span × String)} {X : String} {S : Span}
    (hS : SpansNodup m)
    (hloc : lookupA m.exported_bindings X = some S)
    (hreach : ∃ spec remote names, some spec ∈ m.star_export_entries ∧
      loadedLookup g m spec = some remote ∧
      collectFuel g fuel ∅ remote = some names ∧ X ∈ names)
    (hrun : run_once g fuel m = some out) :
    out.count (S, X) = 1 ∧ ∀ p ∈ out, p.2 = X → p = (S, X) := by
  obtain ⟨spec, remote, names, hmem, hl, hc, hX⟩ := hreach
  rcases hU : totalNames g fuel m with _ | U
  · have hnone : run_once g fuel m = none := by
      unfold run_once
      exact runOnceWith_none_iff.mpr hU
    rw [hnone] at hrun
    cases hrun
  · obtain ⟨o, ho, hleg, hkey, hiff⟩ :=
      runOnceWith_char hS goodOrd_enumNames hU
    unfold run_once at hrun
    rw [ho] at hrun
    injection hrun with hrun
    subst hrun
    have hen : entryNames g fuel m (some spec) = some names := by
      simp only [entryNames, hl, hc]
    have hXU : X ∈ U := unionNames_subset hmem hen hU hX
    have hSX : (S, X) ∈ o := (hiff (S, X)).mpr ⟨hXU, hloc⟩
    have hnd : o.Nodup := List.Nodup.of_map Prod.fst hkey
    refine ⟨count_eq_one_of_nodup_mem hnd hSX, fun p hp hpX => ?_⟩
    have h2 := (hiff p).mp hp
    have h3 : lookupA m.exported_bindings X = some p.1 := by
      rw [← hpX]
      exact h2.2
    rw [hloc] at h3
    injection h3 with h3
    exact Prod.ext h3.symm hpX

/-- Witness for `detect_exactly_one_diagnostic` on the two-hop graph `gD`
(scenario D: `mD` exports `bar` and wildcard-re-exports `nD`, which
wildcard-re-exports `oD`, which exports `bar`). -/
theorem detect_exactly_one_diagnostic_witness :
    [(spanD, "bar")].count (spanD, "bar") = 1 ∧
      ∀ p ∈ [(spanD, "bar")], p.2 = "bar" → p = (spanD, "bar") :=
  detect_exactly_one_diagnostic (by decide)
    (by decide : lookupA mD.exported_bindings "bar" = some spanD)
    ⟨"./n", nD, {"bar"}, by decide, by decide, by decide, by decide⟩
    (by decide : run_once gD 3 mD = some [(spanD, "bar")])

/-- C4: every diagnostic of a successful run names a local export of the
module, at exactly that export's declared span, and the name is reachable
through some resolvable wildcard directive; in particular a name the module
does not export locally is never reported. -/
theorem detect_diagnostics_sound {g : List ModuleRecord} {fuel : Nat}
    {m : ModuleRecord} {out : List (Span × String)}
    (hrun : run_once g fuel m = some out) :
    ∀ p ∈ out, lookupA m.exported_bindings p.2 = some p.1 ∧
      ∃ spec remote names, some spec ∈ m.star_export_entries ∧
        loadedLookup g m spec = some remote ∧
        collectFuel g fuel ∅ remote = some names ∧ p.2 ∈ names := by
  obtain ⟨hleg, _, hprov⟩ := run_once_inv hrun
  exact fun p hp => ⟨hleg p hp, hprov p hp⟩

/-- Witness for `detect_diagnostics_sound` on `gW`. -/
theorem detect_diagnostics_sound_witness :
    lookupA mW.exported_bindings "foo" = some spanW ∧
      ∃ spec remote names, some spec ∈ mW.star_export_entries ∧
        loadedLookup gW mW spec = some remote ∧
        collectFuel gW 2 ∅ remote = some names ∧ "foo" ∈ names :=
  detect_diagnostics_sound
    (by decide : run_once gW 2 mW = some [(spanW, "foo")])
    (spanW, "foo") (by decide)

/-- C5: a wildcard directive with no specifier, or whose specifier the graph
provider cannot resolve, is silently skipped: deleting it from the directive
list changes neither the collector's result (for any accumulator) nor the
diagnostics of `run_once`; sibling directives are still processed, and the
only observable outcome remains the (possibly empty) diagnostic sequence. -/
theorem unresolved_directive_skipped (g : List ModuleRecord) (fuel : Nat)
    (m₁ m₂ : ModuleRecord) (req : Option String)
    (l1 l2 : List (Option String))
    (hb : m₁.exported_bindings = m₂.exported_bindings)
    (hl : m₁.loaded_modules = m₂.loaded_modules)
    (h₁ : m₁.star_export_entries = l1 ++ req :: l2)
    (h₂ : m₂.star_export_entries = l1 ++ l2)
    (hu : Unresolved g m₁ req) :
    (∀ acc, collectFuel g fuel acc m₁ = collectFuel g fuel acc m₂) ∧
      run_once g fuel m₁ = run_once g fuel m₂ := by
  have hln : localNames m₁ = localNames m₂ := by
    unfold localNames
    rw [hb]
  constructor
  · intro acc
    cases fuel with
    | zero => rfl
    | succ fuel =>
        rw [collectFuel, collectFuel, h₁, h₂, hln]
        exact (collectEntries_skip hu l1 l2 (acc ∪ localNames m₂)).trans
          (collectEntries_congr hl (l1 ++ l2) (acc ∪ localNames m₂))
  · unfold run_once runOnceWith
    rw [h₁, h₂]
    have e1 : (l1 ++ req :: l2).isEmpty = false := by cases l1 <;> rfl
    rw [e1]
    simp only [Bool.false_eq_true, if_false]
    have h := (processEntries_skip hu l1 l2 [] :
      processEntries g fuel enumNames m₁ [] (l1 ++ req :: l2) =
        processEntries g fuel enumNames m₁ [] (l1 ++ l2))
    cases he : l1 ++ l2 with
    | nil =>
        simp only [he, List.isEmpty_nil, if_true]
        rw [h, he]
        rfl
    | cons x xs =>
        simp only [he, List.isEmpty_cons, Bool.false_eq_true, if_false]
        rw [h, he]
        exact processEntries_congr hl hb (x :: xs) []

/-- Witness for `unresolved_directive_skipped`: dropping the unresolvable
directive `./missing` from `mWplus` gives back `mW`'s behaviour. -/
theorem unresolved_directive_skipped_witness :
    (collectFuel gW 2 ∅ mWplus = collectFuel gW 2 ∅ mW) ∧
      run_once gW 2 mWplus = run_once gW 2 mW :=
  ⟨(unresolved_directive_skipped gW 2 mWplus mW (some "./missing")
      [] [some "./other"] rfl rfl rfl rfl
      (Or.inr ⟨"./missing", rfl, by decide⟩)).1 ∅,
    (unresolved_directive_skipped gW 2 mWplus mW (some "./missing")
      [] [some "./other"] rfl rfl rfl rfl
      (Or.inr ⟨"./missing", rfl, by decide⟩)).2⟩

/-- C7: permuting a module's wildcard directives leaves the set of
(location, name) diagnostics unchanged — under the upstream guarantee that
each location carries at most one local export name — although the emission
order (unordered by contract) may differ. -/
theorem detect_perm_invariant (g : List ModuleRecord) (fuel : Nat)
    (m₁ m₂ : ModuleRecord)
    (hb : m₁.exported_bindings = m₂.exported_bindings)
    (hl : m₁.loaded_modules = m₂.loaded_modules)
    (hperm : m₁.star_export_entries.Perm m₂.star_export_entries)
    (hS : SpansNodup m₁) :
    (run_once g fuel m₁).map List.toFinset =
      (run_once g fuel m₂).map List.toFinset := by
  have htot : totalNames g fuel m₁ = totalNames g fuel m₂ := by
    unfold totalNames
    exact (unionNames_perm hperm).trans (unionNames_congr hl)
  rcases hU : totalNames g fuel m₁ with _ | U
  · have h1 : run_once g fuel m₁ = none := by
      unfold run_once
      exact runOnceWith_none_iff.mpr hU
    have h2 : run_once g fuel m₂ = none := by
      unfold run_once
      exact runOnceWith_none_iff.mpr (htot.symm.trans hU)
    rw [h1, h2]
  · have hS₂ : SpansNodup m₂ := by
      show (m₂.exported_bindings.map Prod.snd).Nodup
      rw [← hb]
      exact hS
    obtain ⟨o₁, ho₁, _, _, hm₁⟩ := runOnceWith_char hS goodOrd_enumNames hU
    obtain ⟨o₂, ho₂, _, _, hm₂⟩ :=
      runOnceWith_char hS₂ goodOrd_enumNames (htot.symm.trans hU)
    have hr₁ : run_once g fuel m₁ = some o₁ := ho₁
    have hr₂ : run_once g fuel m₂ = some o₂ := ho₂
    rw [hr₁, hr₂]
    show some o₁.toFinset = some o₂.toFinset
    refine congrArg some (Finset.ext fun x => ?_)
    rw [List.mem_toFinset, List.mem_toFinset, hm₁ x, hm₂ x, hb]

/-- Witness for `detect_perm_invariant`: swapping the two directives of
`mP`. -/
theorem detect_perm_invariant_witness :
    (run_once gP 2 mP).map List.toFinset =
      (run_once gP 2 mPswap).map List.toFinset :=
  detect_perm_invariant gP 2 mP mPswap rfl rfl (by decide) (by decide)

/-- C8 counterexample: on the concrete graph `gW` the emitted diagnostic's
message is not the bare template `Multiple exports of name 'foo'.` stated by
the claim — the code's `#[error]` template carries the
`eslint-plugin-import(export): ` rule prefix. -/
theorem export_message_prefix_cex :
    runOnceDiagnostics gW 2 mW = some [namedExport spanW "foo"] ∧
      (namedExport spanW "foo").message ≠
        "Multiple exports of name 'foo'." :=
  ⟨by decide, by decide⟩

/-- C8 (amended): every diagnostic of a successful run has fixed warning
severity, a message that is exactly the code's fixed template
`eslint-plugin-import(export): Multiple exports of name '<name>'.`
parameterized only by the conflicting name, and the span of the local
declaration of that name. -/
theorem export_diagnostic_shape {g : List ModuleRecord} {fuel : Nat}
    {m : ModuleRecord} {ds : List Diagnostic}
    (h : runOnceDiagnostics g fuel m = some ds) :
    ∀ d ∈ ds, d.severity = Severity.warning ∧
      d.message =
        "eslint-plugin-import(export): Multiple exports of name '"
          ++ d.name ++ "'." ∧
      lookupA m.exported_bindings d.name = some d.span := by
  unfold runOnceDiagnostics at h
  rcases hro : run_once g fuel m with _ | out <;> rw [hro] at h
  · exact absurd h (by simp)
  · have hds : ds = out.map (fun p => namedExport p.1 p.2) := by
      have h2 : some (out.map (fun p => namedExport p.1 p.2)) = some ds := h
      injection h2 with h2
      exact h2.symm
    subst hds
    intro d hd
    rcases List.mem_map.mp hd with ⟨p, hp, hdp⟩
    subst hdp
    exact ⟨rfl, rfl, (run_once_inv hro).1 p hp⟩

/-- Witness for `export_diagnostic_shape` on `gW`. -/
theorem export_diagnostic_shape_witness :
    (namedExport spanW "foo").severity = Severity.warning ∧
      (namedExport spanW "foo").message =
        "eslint-plugin-import(export): Multiple exports of name '"
          ++ (namedExport spanW "foo").name ++ "'." ∧
      lookupA mW.exported_bindings (namedExport spanW "foo").name =
        some (namedExport spanW "foo").span :=
  export_diagnostic_shape
    (by decide :
      runOnceDiagnostics gW 2 mW = some [namedExport spanW "foo"])
    (namedExport spanW "foo") (by decide)

/-- C10: under the upstream uniqueness precondition on the local export
table, the detector is deterministic as a set-valued function: two runs
that iterate the collected hash sets in different (faithful) orders produce
the same set of (location, name) diagnostics. -/
theorem detect_deterministic_set {g : List ModuleRecord} {fuel : Nat}
    {m : ModuleRecord} {ord₁ ord₂ : Finset String → List String}
    (h₁ : GoodOrd ord₁) (h₂ : GoodOrd ord₂)
    (_hN : NamesNodup m) (hS : SpansNodup m) :
    (runOnceWith g fuel ord₁ m).map List.toFinset =
      (runOnceWith g fuel ord₂ m).map List.toFinset := by
  rcases hU : totalNames g fuel m with _ | U
  · rw [runOnceWith_none_iff.mpr hU, runOnceWith_none_iff.mpr hU]
  · obtain ⟨o₁, ho₁, _, _, hm₁⟩ := runOnceWith_char hS h₁ hU
    obtain ⟨o₂, ho₂, _, _, hm₂⟩ := runOnceWith_char hS h₂ hU
    rw [ho₁, ho₂]
    show some o₁.toFinset = some o₂.toFinset
    refine congrArg some (Finset.ext fun x => ?_)
    rw [List.mem_toFinset, List.mem_toFinset, hm₁ x, hm₂ x]

/-- Witness for `detect_deterministic_set`: the canonical and the reversed
iteration orders on `gW`. -/
theorem detect_deterministic_set_witness :
    (runOnceWith gW 2 enumNames mW).map List.toFinset =
      (runOnceWith gW 2 revNames mW).map List.toFinset :=
  detect_deterministic_set goodOrd_enumNames goodOrd_revNames
    (by decide) (by decide)

end OxcExport
